import Mathlib

/-!
Shallow embedding of reky (src/src/reky.hpp), the git-backed dependency
fetcher of the snowball toolchain: the declaration-file parser
(`parse_config`), the on-disk dependency cache (`ReckyCache`), the package
index lookup, and the resolution fixpoint (`RekyManager::fetch_dependencies`
and the free function `fetch_dependencies`).

Machine strings are modelled as Lean `String`s operated on through their
character lists; the external filesystem, git subprocesses and the package
index are modelled as explicit data (`LocalFS`, `World`).  Helpers that live
outside this repository (`utils::strip`, `utils::sw`,
`utils::hash::hashString`) are modelled from the spec and say so in their
doc comments.
-/

/-- Modelled from the spec: `utils::strip` is external to this repository;
the spec (§4.1) calls it whitespace-trimming, so this is the C `isspace`
whitespace class used by the trimming helper. -/
def isWS (c : Char) : Bool :=
  c = ' ' || c = '\t' || c = '\n' || c = '\r' || c = Char.ofNat 11 || c = Char.ofNat 12

/-- Modelled from the spec: `utils::strip(line)` trims leading and trailing
whitespace from the line ("lines starting with `#` or empty after
whitespace-trimming are skipped"). -/
def stripL (s : List Char) : List Char :=
  ((s.dropWhile isWS).reverse.dropWhile isWS).reverse

/-- `std::string::find` of `pat` inside `s`, over characters: index of the
first occurrence, `none` for `npos`. -/
def findSub : List Char → List Char → Option Nat
  | [], pat => if pat.isEmpty then some 0 else none
  | c :: t, pat =>
      if pat.isPrefixOf (c :: t) then some 0
      else (findSub t pat).map (· + 1)

/-- `std::unordered_map::find`-style lookup on the association list that
models the map contents. -/
def lookupA {α : Type} : List (String × α) → String → Option α
  | [], _ => none
  | (k, v) :: t, key => if k = key then some v else lookupA t key

/-- `map[key] = val`: overwrite in place when the key is present, append a
new entry when it is absent (one deterministic refinement of the
unordered-map iteration order). -/
def upsert {α : Type} : List (String × α) → String → α → List (String × α)
  | [], key, val => [(key, val)]
  | (k, v) :: t, key, val =>
      if k = key then (key, val) :: t else (k, v) :: upsert t key val

/-- One diagnostic rendered by `error(message, line, file)`
(src/src/reky.hpp:92-96): the message and the line number it carries. -/
structure ParseDiag where
  msg : String
  line : Nat
deriving DecidableEq

/-- The loop state of `parse_config` (src/src/reky.hpp:105-145): the
mapping built so far, the diagnostics reported so far (`has_error` is their
non-emptiness), and the `line_number` counter, which the source increments
only at the end of a fully successful iteration. -/
structure PCState where
  config : List (String × String)
  diags : List ParseDiag
  line_number : Nat
deriving DecidableEq

/-- One iteration of the `while (std::getline(file, line))` body of
`parse_config` (src/src/reky.hpp:116-140).  Per the spec's failure policy
the diagnostic renderer reports and control returns to the loop, so a call
to `error(msg, line_number, file)` appends a diagnostic.  Note that the
source inserts `config[name] = version` before checking name/version for
emptiness, and that every `continue` skips the `line_number++`. -/
def parse_step (st : PCState) (raw : String) : PCState :=
  let line := stripL raw.toList
  if List.isPrefixOf "#".toList line || line.isEmpty then st
  else
    match findSub line "==".toList with
    | none =>
        { st with diags := st.diags ++
            [⟨"Invalid package format. Must be 'name==version'", st.line_number⟩] }
    | some pos =>
        let name := String.mk (line.take pos)
        let version := String.mk (line.drop (pos + 2))
        let st1 := { st with config := upsert st.config name version }
        if version = "" then
          { st1 with diags := st1.diags ++
              [⟨"Invalid version format. Must be 'name==version'", st1.line_number⟩] }
        else if name = "" then
          { st1 with diags := st1.diags ++
              [⟨"Invalid name format. Must be 'name==version'", st1.line_number⟩] }
        else { st1 with line_number := st1.line_number + 1 }

/-- The whole `while` loop of `parse_config` over the file's lines. -/
def parse_config_lines (lines : List String) : PCState :=
  lines.foldl parse_step { config := [], diags := [], line_number := 1 }

/-- `parse_config` after the loop: `if (has_error) exit(1)` — the run
aborts (with every diagnostic already reported) exactly when at least one
diagnostic was recorded, otherwise the mapping is returned. -/
def parse_config_run (lines : List String) :
    Except (List ParseDiag) (List (String × String)) :=
  let st := parse_config_lines lines
  if st.diags.isEmpty then .ok st.config else .error st.diags

/-- `ReckyCache` (src/src/reky.hpp:53-90): the resolved name→version
mapping and its dirty flag. -/
structure ReckyCache where
  cache : List (String × String)
  has_changed : Bool := false
deriving DecidableEq

/-- `ReckyCache::save` (src/src/reky.hpp:57-71): one line per entry,
the key padded with spaces to the largest key size, then `" ==  "`, then
the value. -/
def ReckyCache.save (c : ReckyCache) : List String :=
  let max_key_size := c.cache.foldl (fun m kv => Nat.max m kv.1.length) 0
  c.cache.map (fun kv =>
    kv.1 ++ String.mk (List.replicate (max_key_size - kv.1.length) ' ') ++ " ==  " ++ kv.2)

/-- `ReckyCache::has_package`. -/
def ReckyCache.has_package (c : ReckyCache) (name : String) : Bool :=
  (lookupA c.cache name).isSome

/-- `ReckyCache::add_package`: `cache[name] = version; has_changed = true`. -/
def ReckyCache.add_package (c : ReckyCache) (name version : String) : ReckyCache :=
  { cache := upsert c.cache name version, has_changed := true }

/-- `ReckyCache::reset_changed`. -/
def ReckyCache.reset_changed (c : ReckyCache) : ReckyCache :=
  { c with has_changed := false }

/-- Whether an `Except` computation succeeded. -/
def exceptOk {ε α : Type} : Except ε α → Bool
  | .ok _ => true
  | .error _ => false

example : (parse_config_lines ["foo==1.2.3"]).config = [("foo", "1.2.3")] := by decide

example : ReckyCache.save ⟨[("a", "1")], false⟩ = ["a ==  1"] := by decide

example : parse_config_run ["a ==  1"] = .ok [("a ", "  1")] := rfl

/-- Modelled from the spec: the install directory of a package is
`utils::hash::hashString(name)` (external to this repository); the design
relies on it being a deterministic directory name derived from the package
name, distinct for distinct names, so an injective tagging stands in for
the content hash. -/
def get_dep_folder (name : String) : String := String.mk ('h' :: name.toList)

/-- A worklist path: a caller-supplied project root (whose
`filename()`/parent fallback of src/src/reky.hpp:167-171 yields its own
directory name) or a dependency install directory `deps_path / folder`. -/
inductive RPath
  | proj (name : String)
  | dep (folder : String)
deriving DecidableEq

/-- The directory name the resolver derives for a worklist path before the
sidecar lookup. -/
def RPath.filename : RPath → String
  | .proj n => n
  | .dep f => f

/-- One `pkgs/<name>.json` descriptor of the package index. -/
structure Pkg where
  versions : List String
  download_url : String
deriving DecidableEq

/-- The external world: the package index (`pkgs/<name>.json` descriptors)
and, for every `(download_url, branch)` git clone, the `sn.reky` lines of
the cloned repository. -/
structure World where
  index : List (String × Pkg)
  remotes : List (String × String × List String)
deriving DecidableEq

/-- Look the clone of `url` at `branch` up in the world. -/
def lookupRemote : List (String × String × List String) → String → String → Option (List String)
  | [], _, _ => none
  | (u, b, ls) :: t, url, branch =>
      if u = url then (if b = branch then some ls else lookupRemote t url branch)
      else lookupRemote t url branch

/-- The local filesystem state the resolver reads and writes: per project
root the lines of its `sn.reky` (absent file → `none`), per installed
dependency folder its existence, its `sn.reky` lines and its `<hash>.name`
sidecar, the `.reky_cache` file of the workspace, and the record of the
`git clone` operations performed (name, pinned version). -/
structure LocalFS where
  projFiles : List (String × List String)
  depFiles : List (String × List String)
  installed : List String
  sidecars : List (String × String)
  cacheFile : Option (List String)
  clones : List (String × String)
deriving DecidableEq

/-- The error taxonomy of the run: a batch of parser diagnostics
(`parse_config`'s `exit(1)`), a version conflict
(src/src/reky.hpp:185), a missing index descriptor
(src/src/reky.hpp:270) and a missing published version
(src/src/reky.hpp:280). -/
inductive RekyError
  | parse (diags : List ParseDiag)
  | conflict (name installed_version version : String)
  | pkg_not_found (name : String)
  | version_not_found (version name : String)
deriving DecidableEq

/-- The state of `RekyManager` during one run: the worklist
(`allowed_paths`), cache, dependency graph, local filesystem, the
index-refreshed flag, and two observation trails — the number of passes
begun and the parse events `(pass, path)` in order. -/
structure RState where
  worklist : List RPath
  cache : ReckyCache
  graph : List (String × List String)
  fs : LocalFS
  index_fetched : Bool
  passes : Nat
  parses : List (Nat × RPath)
deriving DecidableEq

/-- `parse_config` applied to a worklist path (src/src/reky.hpp:105-145):
an absent declaration file yields the empty mapping, otherwise the line
loop runs and any recorded diagnostic exits the process. -/
def parse_config_at (fs : LocalFS) (p : RPath) :
    Except (List ParseDiag) (List (String × String)) :=
  match (match p with
         | .proj n => lookupA fs.projFiles n
         | .dep f => lookupA fs.depFiles f) with
  | none => .ok []
  | some ls => parse_config_run ls

/-- `RekyManager::get_name_from_hash` (src/src/reky.hpp:198-208): read the
`<hash>.name` sidecar, fall back to the hash itself. -/
def get_name_from_hash (fs : LocalFS) (hash : String) : String :=
  (lookupA fs.sidecars hash).getD hash

/-- `RekyManager::is_installed` (src/src/reky.hpp:252-255): only the
existence of the hash-named directory is checked; the version argument is
ignored. -/
def is_installed (fs : LocalFS) (name : String) (_version : String) : Bool :=
  fs.installed.contains (get_dep_folder name)

/-- `RekyManager::get_package_data` (src/src/reky.hpp:257-265): read
`pkgs/<name>.json` from the index clone; `none` when the descriptor file
is absent. -/
def get_package_data (w : World) (name : String) (_version : String) : Option Pkg :=
  lookupA w.index name

/-- `RekyManager::install` (src/src/reky.hpp:267-289): missing descriptor
and missing published version abort; otherwise the sidecar is written and
the pinned shallow clone creates the install directory with the remote's
declaration file.  The source's search loop leaves `install_version` empty
both when no element of `versions` equals `version` and when the matching
element is itself the empty string, and `install_version.empty()` then
aborts; the two error arms here are those two ways of staying empty.
Errors carry the on-disk state at the moment the process exits. -/
def install (w : World) (fs : LocalFS) (name version : String) :
    Except (RekyError × LocalFS) LocalFS :=
  match get_package_data w name version with
  | none => .error (.pkg_not_found name, fs)
  | some package_data =>
      match package_data.versions.find? (fun v => v == version) with
      | none => .error (.version_not_found version name, fs)
      | some install_version =>
          if install_version = "" then .error (.version_not_found version name, fs)
          else
            let package_path := get_dep_folder name
            let cloned :=
              (lookupRemote w.remotes package_data.download_url install_version).getD []
            .ok { fs with
                  sidecars := upsert fs.sidecars package_path name,
                  installed := fs.installed ++ [package_path],
                  depFiles := upsert fs.depFiles package_path cloned,
                  clones := fs.clones ++ [(name, install_version)] }

/-- The loop of `RekyManager::installed_if_needed` (src/src/reky.hpp:212-216)
over the cache entries. -/
def install_missing (w : World) :
    List (String × String) → LocalFS → Except (RekyError × LocalFS) LocalFS
  | [], fs => .ok fs
  | (name, version) :: rest, fs =>
      if is_installed fs name version then install_missing w rest fs
      else
        match install w fs name version with
        | .error e => .error e
        | .ok fs1 => install_missing w rest fs1

/-- `RekyManager::installed_if_needed` (src/src/reky.hpp:210-217):
refresh the package index (at most once per run) and install every cached
package whose directory does not exist yet. -/
def installed_if_needed (w : World) (st : RState) :
    Except (RekyError × LocalFS) RState :=
  match install_missing w st.cache.cache st.fs with
  | .error e => .error e
  | .ok fs1 => .ok { st with index_fetched := true, fs := fs1 }

/-- Lines 177-187 of `RekyManager::fetch_dependencies`: resolve one
declared `(name, version)` pair against the cache — new names are
registered and their install directory appended to the worklist, a cached
equal version is a no-op, a cached different version is a fatal conflict
(the graph edge of line 176 is pushed by `process_entry` beforehand). -/
def resolve_entry (st : RState) (name version : String) :
    Except (RekyError × LocalFS) RState :=
  if st.cache.has_package name then
    let installed_version := (lookupA st.cache.cache name).getD ""
    if installed_version ≠ version then
      .error (.conflict name installed_version version, st.fs)
    else .ok st
  else
    .ok { st with
          worklist := st.worklist ++ [.dep (get_dep_folder name)],
          cache := st.cache.add_package name version }

/-- `graph.graph[node].push_back(dep_name)` (src/src/reky.hpp:176). -/
def graph_push (g : List (String × List String)) (node dep_name : String) :
    List (String × List String) :=
  upsert g node ((lookupA g node).getD [] ++ [dep_name])

/-- One declared pair: the edge push of line 176 followed by the
resolution of lines 177-187. -/
def process_entry (node : String) (st : RState) (nv : String × String) :
    Except (RekyError × LocalFS) RState :=
  resolve_entry { st with graph := graph_push st.graph node nv.1 } nv.1 nv.2

/-- The `for (auto& [name, version] : config)` loop of lines 175-188. -/
def process_entries (node : String) :
    List (String × String) → RState → Except (RekyError × LocalFS) RState
  | [], st => .ok st
  | nv :: rest, st =>
      match process_entry node st nv with
      | .error e => .error e
      | .ok st1 => process_entries node rest st1

/-- Lines 166-189 for one worklist path: derive the node name (sidecar
lookup), parse its declaration file, reset the node's edge list
(line 174), then resolve each declared pair.  The parse event is recorded
with the current pass number. -/
def process_path (p : RPath) (st : RState) : Except (RekyError × LocalFS) RState :=
  let node := get_name_from_hash st.fs p.filename
  let st1 := { st with parses := st.parses ++ [(st.passes, p)] }
  match parse_config_at st1.fs p with
  | .error ds => .error (.parse ds, st1.fs)
  | .ok config =>
      process_entries node config { st1 with graph := upsert st1.graph node [] }

/-- The `for (auto& path : allowed_paths)` loop of lines 166-189 over the
pass's worklist snapshot (newly discovered directories are appended to the
live worklist and, per the spec's step 5, processed in a subsequent pass;
the C++ range-for with a concurrent `push_back` invalidates its iterator,
so the spec's pass semantics is the faithful reading). -/
def process_paths : List RPath → RState → Except (RekyError × LocalFS) RState
  | [], st => .ok st
  | p :: rest, st =>
      match process_path p st with
      | .error e => .error e
      | .ok st1 => process_paths rest st1

/-- Outcome of a resolution run: fixpoint reached, process exited with an
error (the on-disk state at that moment survives), or the recursion-depth
fuel ran out before the fixpoint. -/
inductive RunOut
  | ok (st : RState)
  | fail (e : RekyError) (fs : LocalFS)
  | out (st : RState)
deriving DecidableEq

def RunOut.isOut : RunOut → Bool
  | .out _ => true
  | _ => false

def RunOut.isOk : RunOut → Bool
  | .ok _ => true
  | _ => false

def RunOut.errOf : RunOut → Option RekyError
  | .fail e _ => some e
  | _ => none

def RunOut.parsesOf : RunOut → List (Nat × RPath)
  | .ok st => st.parses
  | .out st => st.parses
  | .fail _ _ => []

/-- `RekyManager::fetch_dependencies` (src/src/reky.hpp:161-196) after the
first-run seeding: one recursion level is one pass over the worklist
snapshot; if the cache became dirty the missing packages are installed,
the dirty flag is cleared and the (extended) worklist is re-run, otherwise
the cache is returned.  `fuel` bounds the recursion depth. -/
def fetch_dependencies (w : World) : Nat → RState → RunOut
  | 0, st => .out st
  | fuel + 1, st =>
      let stp := { st with passes := st.passes + 1 }
      match process_paths stp.worklist stp with
      | .error (e, fs) => .fail e fs
      | .ok st1 =>
          if st1.cache.has_changed then
            match installed_if_needed w st1 with
            | .error (e, fs) => .fail e fs
            | .ok st2 =>
                fetch_dependencies w fuel { st2 with cache := st2.cache.reset_changed }
          else .ok st1

/-- `RekyManager::fetch_cache` (src/src/reky.hpp:291-303): parse the
persisted cache file, seed a fresh cache with every entry and push each
entry's install directory for the worklist, then clear the dirty flag. -/
def fetch_cache (fs : LocalFS) : Except (RekyError × LocalFS) (ReckyCache × List RPath) :=
  match (match fs.cacheFile with
         | none => Except.ok []
         | some ls => parse_config_run ls) with
  | .error ds => .error (.parse ds, fs)
  | .ok config =>
      let cache := config.foldl (fun (c : ReckyCache) nv => c.add_package nv.1 nv.2)
        (⟨[], false⟩ : ReckyCache)
      let paths := config.map (fun nv => RPath.dep (get_dep_folder nv.1))
      .ok (cache.reset_changed, paths)

/-- The free function `fetch_dependencies` (src/src/reky.hpp:318-323): run
a fresh manager (the first run seeds cache and worklist from the persisted
cache file) and persist the cache file only when the fixpoint was reached;
an aborted run leaves the previous cache file untouched. -/
def fetch_dependencies_entry (w : World) (fuel : Nat) (fs0 : LocalFS)
    (roots : List RPath) : RunOut :=
  match fetch_cache fs0 with
  | .error (e, fs) => .fail e fs
  | .ok (cache0, cache_paths) =>
      let st0 : RState :=
        { worklist := roots ++ cache_paths, cache := cache0, graph := [],
          fs := fs0, index_fetched := false, passes := 0, parses := [] }
      match fetch_dependencies w fuel st0 with
      | .ok st => .ok { st with fs := { st.fs with cacheFile := some st.cache.save } }
      | r => r

/-- A first-run workspace: nothing installed, nothing cloned, no cache
file, no dependency directories. -/
def FreshFS (fs : LocalFS) : Prop :=
  fs.installed = [] ∧ fs.clones = [] ∧ fs.cacheFile = none
  ∧ fs.depFiles = [] ∧ fs.sidecars = []

def RunOut.cacheFileOf : RunOut → Option (List String)
  | .ok st => st.fs.cacheFile
  | .fail _ fs => fs.cacheFile
  | .out st => st.fs.cacheFile

def RunOut.clonesOf : RunOut → List (String × String)
  | .ok st => st.fs.clones
  | .fail _ fs => fs.clones
  | .out st => st.fs.clones

def RunOut.passesOf : RunOut → Nat
  | .ok st => st.passes
  | .out st => st.passes
  | .fail _ _ => 0

/-- String reconstruction from its character list is the identity. -/
theorem string_mk_toList (s : String) : String.mk s.toList = s := by
  cases s
  rfl

/-- A declaration line that parses cleanly into `name==version`: it is
unaffected by trimming, is no comment, is non-empty, its first `==` sits
right after `name`, and both parts are non-empty. -/
def GoodLine (l name version : String) : Prop :=
  stripL l.toList = l.toList
  ∧ List.isPrefixOf "#".toList l.toList = false
  ∧ l.toList ≠ []
  ∧ findSub l.toList "==".toList = some name.length
  ∧ l.toList.take name.length = name.toList
  ∧ l.toList.drop (name.length + 2) = version.toList
  ∧ name ≠ "" ∧ version ≠ ""

instance (l name version : String) : Decidable (GoodLine l name version) := by
  unfold GoodLine
  infer_instance

/-- A clean `name==version` line runs the successful branch of the loop
body: the mapping is updated in place and the line counter advances. -/
theorem parse_step_goodline (st : PCState) (l name version : String)
    (h : GoodLine l name version) :
    parse_step st l =
      { st with config := upsert st.config name version,
                line_number := st.line_number + 1 } := by
  obtain ⟨hs, hc, hne, hf, htake, hdrop, hn, hv⟩ := h
  have hemp : (l.toList).isEmpty = false := by
    cases hcase : l.toList
    · exact absurd hcase hne
    · rfl
  have hvmk : String.mk (l.toList.drop (name.length + 2)) = version := by
    rw [hdrop, string_mk_toList]
  have hnmk : String.mk (l.toList.take name.length) = name := by
    rw [htake, string_mk_toList]
  simp only [parse_step, hs, hc, hemp, hf, Bool.or_self, Bool.false_eq_true, if_false,
    hvmk, hnmk]
  rw [if_neg hv, if_neg hn]


def world_foo : World :=
  { index := [("foo", ⟨["1.0"], "uF"⟩)], remotes := [("uF", "1.0", [])] }

/-- A fresh workspace whose root project `main` declares `foo==1.0`. -/
def fs_foo_fresh : LocalFS :=
  { projFiles := [("main", ["foo==1.0"])], depFiles := [], installed := [],
    sidecars := [], cacheFile := none, clones := [] }

/-- The same workspace after a successful first run: `foo`'s install
directory, sidecar and declaration file exist and the cache file written
by that run is in place (clone trail reset to observe the second run). -/
def fs_foo_prepopulated : LocalFS :=
  { projFiles := [("main", ["foo==1.0"])],
    depFiles := [(get_dep_folder "foo", [])],
    installed := [get_dep_folder "foo"],
    sidecars := [(get_dep_folder "foo", "foo")],
    cacheFile := some ["foo ==  1.0"], clones := [] }

/-- C5: the parser maps `foo==1.2.3` to `{foo: "1.2.3"}`, skips `#`-lines
and lines empty after trimming, splits a line at the FIRST `==` into name
(left) and version (right), and records an error for a missing separator
(`foo:1.0`), an empty name (`==1.0`) and an empty version (`foo==`). -/
theorem c5_parser_maps_splits_skips_errors :
    (parse_config_lines ["foo==1.2.3"]).config = [("foo", "1.2.3")]
    ∧ (parse_config_lines ["foo==1.2.3"]).diags = []
    ∧ parse_config_lines ["# x", "", "   ", "foo==1.2.3"]
        = { config := [("foo", "1.2.3")], diags := [], line_number := 2 }
    ∧ (parse_config_lines ["a==b==c"]).config = [("a", "b==c")]
    ∧ (parse_config_lines ["foo:1.0"]).diags
        = [⟨"Invalid package format. Must be 'name==version'", 1⟩]
    ∧ (parse_config_lines ["==1.0"]).diags
        = [⟨"Invalid name format. Must be 'name==version'", 1⟩]
    ∧ (parse_config_lines ["foo=="]).diags
        = [⟨"Invalid version format. Must be 'name==version'", 1⟩]
    ∧ ∀ st raw,
        (List.isPrefixOf "#".toList (stripL raw.toList)
          || (stripL raw.toList).isEmpty) = true →
        parse_step st raw = st := by
  refine ⟨by decide, by decide, by decide, by decide, by decide, by decide, by decide, ?_⟩
  intro st raw h
  simp only [parse_step, h, if_true]

/-- Witness for C5's universally quantified skip clause: a comment line
leaves the parser state untouched. -/
theorem c5_witness :
    parse_step { config := [], diags := [], line_number := 1 } "# hello"
      = { config := [], diags := [], line_number := 1 } :=
  c5_parser_maps_splits_skips_errors.2.2.2.2.2.2.2
    { config := [], diags := [], line_number := 1 } "# hello" (by decide)

/-- C6: the parser does not stop at the first bad line — on a file whose
lines 1-3 are each malformed in a different way and whose line 4 is clean,
all three diagnostics are recorded, line 4 is still parsed into the
mapping, and the run exits non-zero carrying the full batch; in general
the run succeeds exactly when no diagnostic was recorded during the full
scan. -/
theorem c6_collects_all_then_aborts :
    parse_config_run ["foo:1.0", "==1.0", "foo==", "ok==1"]
      = .error [⟨"Invalid package format. Must be 'name==version'", 1⟩,
                ⟨"Invalid name format. Must be 'name==version'", 1⟩,
                ⟨"Invalid version format. Must be 'name==version'", 1⟩]
    ∧ (parse_config_lines ["foo:1.0", "==1.0", "foo==", "ok==1"]).config
      = [("", "1.0"), ("foo", ""), ("ok", "1")]
    ∧ ∀ lines, exceptOk (parse_config_run lines)
        = (parse_config_lines lines).diags.isEmpty := by
  refine ⟨rfl, by decide, ?_⟩
  intro lines
  simp only [parse_config_run]
  cases h : (parse_config_lines lines).diags.isEmpty <;> simp [h, exceptOk]

/-- Witness for C6's general clause at a one-line malformed file. -/
theorem c6_witness :
    exceptOk (parse_config_run ["x:1"]) = (parse_config_lines ["x:1"]).diags.isEmpty :=
  c6_collects_all_then_aborts.2.2 ["x:1"]

/-- C7 fails on the code: `line_number` is incremented only at the end of a
fully successful iteration (src/src/reky.hpp:139 sits after every
`continue`), so a malformed line at actual position 2 — behind a comment
line, or behind another malformed line — is reported as line 1. -/
theorem c7_reported_line_numbers :
    (parse_config_lines ["# c", "foo:1.0"]).diags
      = [⟨"Invalid package format. Must be 'name==version'", 1⟩]
    ∧ (parse_config_lines ["a:1", "b:2"]).diags
      = [⟨"Invalid package format. Must be 'name==version'", 1⟩,
         ⟨"Invalid package format. Must be 'name==version'", 1⟩] := by
  exact ⟨by decide, by decide⟩

/-- C4 fails on the code: saving the mapping `{a ↦ 1}` writes the line
`a ==  1`, and reloading that line through `parse_config` splits at the
first `==` without trimming either side, producing `{"a " ↦ "  1"}` — the
saved name is no longer a key of the reloaded mapping. -/
theorem c4_cache_roundtrip_fails :
    ReckyCache.save ⟨[("a", "1")], false⟩ = ["a ==  1"]
    ∧ parse_config_run ["a ==  1"] = .ok [("a ", "  1")]
    ∧ lookupA [("a ", "  1")] "a" = none := by
  exact ⟨by decide, rfl, by decide⟩

/-- C10: when one declaration file lists the same package name on several
well-formed lines, each later occurrence silently overwrites the earlier
one in place and no diagnostic is recorded, even for differing versions;
concretely, `foo==1.0`/`bar==2.0`/`foo==3.0` yields `foo ↦ 3.0`. -/
theorem c10_duplicate_names_last_wins :
    (∀ l1 l2 name v1 v2, GoodLine l1 name v1 → GoodLine l2 name v2 →
        parse_config_lines [l1, l2]
          = { config := [(name, v2)], diags := [], line_number := 3 })
    ∧ parse_config_lines ["foo==1.0", "bar==2.0", "foo==3.0"]
        = { config := [("foo", "3.0"), ("bar", "2.0")], diags := [], line_number := 4 } := by
  constructor
  · intro l1 l2 name v1 v2 h1 h2
    show parse_step (parse_step { config := [], diags := [], line_number := 1 } l1) l2 = _
    rw [parse_step_goodline _ _ _ _ h1, parse_step_goodline _ _ _ _ h2]
    simp [upsert]
  · decide

/-- Witness for C10's general clause: two clean lines redeclaring `foo`. -/
theorem c10_witness :
    parse_config_lines ["foo==1.0", "foo==2.0"]
      = { config := [("foo", "2.0")], diags := [], line_number := 3 } :=
  c10_duplicate_names_last_wins.1 "foo==1.0" "foo==2.0" "foo" "1.0" "2.0"
    (by decide) (by decide)

/-- C3 fails on the code: a first run over `main` declaring `foo==1.0`
succeeds and persists the cache line `foo ==  1.0`; re-running with the
unchanged declaration and the fully pre-populated workspace reloads the
corrupted entry `{"foo " ↦ "  1.0"}`, re-registers `foo` as new, and the
install step then aborts the whole run with `Package 'foo ' not found in
the package index` instead of reproducing the cache with zero clones. -/
theorem c3_rerun_not_idempotent :
    (fetch_dependencies_entry world_foo 3 fs_foo_fresh [RPath.proj "main"]).isOk = true
    ∧ (fetch_dependencies_entry world_foo 3 fs_foo_fresh [RPath.proj "main"]).cacheFileOf
        = some ["foo ==  1.0"]
    ∧ (fetch_dependencies_entry world_foo 3 fs_foo_prepopulated [RPath.proj "main"]).errOf
        = some (.pkg_not_found "foo ") := by
  exact ⟨rfl, rfl, rfl⟩

def world_chain : World :=
  { index := [("A", ⟨["1.0"], "uA"⟩), ("B", ⟨["2.0"], "uB"⟩)],
    remotes := [("uA", "1.0", ["B==2.0"]), ("uB", "2.0", [])] }

/-- A fresh workspace whose root `main` declares `A==1.0`; `A`'s clone
declares `B==2.0`; `B`'s clone declares nothing. -/
def fs_chain : LocalFS :=
  { projFiles := [("main", ["A==1.0"])], depFiles := [], installed := [],
    sidecars := [], cacheFile := none, clones := [] }

/-- Two roots that disagree on `X`'s version. -/
def fs_conflict : LocalFS :=
  { projFiles := [("r1", ["X==1.0"]), ("r2", ["X==2.0"])], depFiles := [],
    installed := [], sidecars := [], cacheFile := none, clones := [] }

/-- A resolver state whose cache already holds `X ↦ 1.0`. -/
def rst_conflict : RState :=
  { worklist := [RPath.proj "r1"], cache := ⟨[("X", "1.0")], false⟩, graph := [],
    fs := fs_conflict, index_fetched := false, passes := 1, parses := [] }

/-- A fresh workspace whose root `main` declares `B==1.0`. -/
def fs_pkgB : LocalFS :=
  { projFiles := [("main", ["B==1.0"])], depFiles := [], installed := [],
    sidecars := [], cacheFile := none, clones := [] }

/-- Resolving one pair never touches disk, pass counter or parse trail;
an error carries the disk state unchanged. -/
theorem resolve_entry_frame (st : RState) (n v : String) :
    (∀ st1, resolve_entry st n v = .ok st1 →
        st1.fs = st.fs ∧ st1.passes = st.passes ∧ st1.parses = st.parses)
    ∧ (∀ e fs2, resolve_entry st n v = .error (e, fs2) → fs2 = st.fs) := by
  constructor
  · intro st1 h
    simp only [resolve_entry] at h
    repeat split at h
    all_goals first
      | exact Except.noConfusion h
      | (cases h; exact ⟨rfl, rfl, rfl⟩)
  · intro e fs2 h
    simp only [resolve_entry] at h
    repeat split at h
    all_goals first
      | exact Except.noConfusion h
      | (cases h; rfl)

/-- Frame lemma for one declared pair including the graph edge push. -/
theorem process_entry_frame (node : String) (st : RState) (nv : String × String) :
    (∀ st1, process_entry node st nv = .ok st1 →
        st1.fs = st.fs ∧ st1.passes = st.passes ∧ st1.parses = st.parses)
    ∧ (∀ e fs2, process_entry node st nv = .error (e, fs2) → fs2 = st.fs) := by
  unfold process_entry
  exact resolve_entry_frame _ nv.1 nv.2

/-- Frame lemma for the loop over one file's declared pairs. -/
theorem process_entries_frame (node : String) :
    ∀ (l : List (String × String)) (st : RState),
      (∀ st1, process_entries node l st = .ok st1 →
          st1.fs = st.fs ∧ st1.passes = st.passes ∧ st1.parses = st.parses)
      ∧ (∀ e fs2, process_entries node l st = .error (e, fs2) → fs2 = st.fs) := by
  intro l
  induction l with
  | nil =>
      intro st
      constructor
      · intro st1 h
        cases h
        exact ⟨rfl, rfl, rfl⟩
      · intro e fs2 h
        exact Except.noConfusion h
  | cons nv rest ih =>
      intro st
      constructor
      · intro st1 h
        unfold process_entries at h
        split at h
        · exact Except.noConfusion h
        · rename_i stm hm
          obtain ⟨hf, hp, hr⟩ := (process_entry_frame node st nv).1 stm hm
          obtain ⟨hf1, hp1, hr1⟩ := (ih stm).1 st1 h
          exact ⟨hf1.trans hf, hp1.trans hp, hr1.trans hr⟩
      · intro e fs2 h
        unfold process_entries at h
        split at h
        · rename_i hm
          injection h with h1
          cases h1
          exact (process_entry_frame node st nv).2 e fs2 hm
        · rename_i stm hm
          exact ((ih stm).2 e fs2 h).trans ((process_entry_frame node st nv).1 stm hm).1

/-- One worklist path appends exactly one parse event, tagged with the
current pass, and leaves disk and pass counter untouched; an error carries
the disk state unchanged. -/
theorem process_path_frame (p : RPath) (st : RState) :
    (∀ st1, process_path p st = .ok st1 →
        st1.fs = st.fs ∧ st1.passes = st.passes
        ∧ st1.parses = st.parses ++ [(st.passes, p)])
    ∧ (∀ e fs2, process_path p st = .error (e, fs2) → fs2 = st.fs) := by
  constructor
  · intro st1 h
    simp only [process_path] at h
    split at h
    · exact Except.noConfusion h
    · rename_i config hcfg
      obtain ⟨hf, hp, hr⟩ := (process_entries_frame _ config _).1 st1 h
      exact ⟨hf, hp, hr⟩
  · intro e fs2 h
    simp only [process_path] at h
    split at h
    · injection h with h1
      cases h1
      rfl
    · rename_i config hcfg
      have h2 := (process_entries_frame _ config _).2 e fs2 h
      exact h2

/-- The pass over a worklist snapshot parses exactly the snapshot, in
order, each path once, all tagged with the pass number; disk and pass
counter are untouched, and an error carries the disk state unchanged. -/
theorem process_paths_frame :
    ∀ (ps : List RPath) (st : RState),
      (∀ st1, process_paths ps st = .ok st1 →
          st1.fs = st.fs ∧ st1.passes = st.passes
          ∧ st1.parses = st.parses ++ ps.map (fun p => (st.passes, p)))
      ∧ (∀ e fs2, process_paths ps st = .error (e, fs2) → fs2 = st.fs) := by
  intro ps
  induction ps with
  | nil =>
      intro st
      constructor
      · intro st1 h
        cases h
        exact ⟨rfl, rfl, by simp⟩
      · intro e fs2 h
        exact Except.noConfusion h
  | cons p rest ih =>
      intro st
      constructor
      · intro st1 h
        unfold process_paths at h
        split at h
        · exact Except.noConfusion h
        · rename_i stm hm
          obtain ⟨hf, hp, hr⟩ := (process_path_frame p st).1 stm hm
          obtain ⟨hf1, hp1, hr1⟩ := (ih stm).1 st1 h
          refine ⟨hf1.trans hf, hp1.trans hp, ?_⟩
          rw [hr1, hr, hp]
          simp
      · intro e fs2 h
        unfold process_paths at h
        split at h
        · rename_i hm
          injection h with h1
          cases h1
          exact (process_path_frame p st).2 e fs2 hm
        · rename_i stm hm
          exact ((ih stm).2 e fs2 h).trans ((process_path_frame p st).1 stm hm).1

/-- `install` never rewrites the cache file (success or abort). -/
theorem install_cacheFile (w : World) (fs : LocalFS) (n v : String) :
    (∀ fs1, install w fs n v = .ok fs1 → fs1.cacheFile = fs.cacheFile)
    ∧ (∀ e fs2, install w fs n v = .error (e, fs2) → fs2.cacheFile = fs.cacheFile) := by
  constructor
  · intro fs1 h
    simp only [install] at h
    repeat' split at h
    all_goals first
      | exact Except.noConfusion h
      | (cases h; rfl)
  · intro e fs2 h
    simp only [install] at h
    repeat' split at h
    all_goals first
      | exact Except.noConfusion h
      | (cases h; rfl)

/-- The install loop never rewrites the cache file (success or abort). -/
theorem install_missing_cacheFile (w : World) :
    ∀ (l : List (String × String)) (fs : LocalFS),
      (∀ fs1, install_missing w l fs = .ok fs1 → fs1.cacheFile = fs.cacheFile)
      ∧ (∀ e fs2, install_missing w l fs = .error (e, fs2) → fs2.cacheFile = fs.cacheFile) := by
  intro l
  induction l with
  | nil =>
      intro fs
      constructor
      · intro fs1 h
        cases h
        rfl
      · intro e fs2 h
        exact Except.noConfusion h
  | cons nv rest ih =>
      intro fs
      constructor
      · intro fs1 h
        unfold install_missing at h
        split at h
        · exact (ih fs).1 fs1 h
        · split at h
          · exact Except.noConfusion h
          · rename_i fsm hm
            exact ((ih fsm).1 fs1 h).trans ((install_cacheFile w fs nv.1 nv.2).1 fsm hm)
      · intro e fs2 h
        unfold install_missing at h
        split at h
        · exact (ih fs).2 e fs2 h
        · split at h
          · rename_i hm
            injection h with h1
            cases h1
            exact (install_cacheFile w fs nv.1 nv.2).2 e fs2 hm
          · rename_i fsm hm
            exact ((ih fsm).2 e fs2 h).trans ((install_cacheFile w fs nv.1 nv.2).1 fsm hm)

/-- The fixpoint recursion never rewrites the cache file when it aborts:
the disk state it exits with carries the cache file it started with. -/
theorem fetch_dependencies_fail_cacheFile (w : World) :
    ∀ (fuel : Nat) (st : RState) (e : RekyError) (fs2 : LocalFS),
      fetch_dependencies w fuel st = .fail e fs2 → fs2.cacheFile = st.fs.cacheFile := by
  intro fuel
  induction fuel with
  | zero =>
      intro st e fs2 h
      exact RunOut.noConfusion h
  | succ fuel ih =>
      intro st e fs2 h
      simp only [fetch_dependencies] at h
      split at h
      · rename_i e1 fs1 hm
        injection h with h1 h2
        have h3 := (process_paths_frame _ _).2 e1 fs1 hm
        rw [← h2, h3]
      · rename_i st1 hm
        have hfs1 := ((process_paths_frame _ _).1 st1 hm).1
        split at h
        · split at h
          · rename_i e1 fs1 hi
            injection h with h1 h2
            simp only [installed_if_needed] at hi
            split at hi
            · rename_i em hmiss
              injection hi with h3
              cases h3
              have h6 := (install_missing_cacheFile w _ st1.fs).2 e1 fs1 hmiss
              rw [← h2, h6, hfs1]
            · exact Except.noConfusion hi
          · rename_i st2 hi
            have h4 := ih _ e fs2 h
            simp only [installed_if_needed] at hi
            split at hi
            · exact Except.noConfusion hi
            · rename_i fsm hmiss
              injection hi with h5
              cases h5
              have h6 := (install_missing_cacheFile w _ st1.fs).1 fsm hmiss
              rw [h4, h6, hfs1]
        · exact RunOut.noConfusion h

/-- C1: resolving a declared `(name, version)` pair whose name is already
cached is a no-op when the cached version equals the declared one; when
they differ the run fails at once with a conflict error naming the package
and both versions; and an aborted run (any failure) leaves the previously
persisted cache file untouched, since only the success path of the
top-level `fetch_dependencies` writes it. -/
theorem c1_conflict_detection_and_abort :
    (∀ (st : RState) (name version : String),
        lookupA st.cache.cache name = some version →
        resolve_entry st name version = .ok st)
    ∧ (∀ (st : RState) (name version installed_version : String),
        lookupA st.cache.cache name = some installed_version →
        installed_version ≠ version →
        resolve_entry st name version
          = .error (.conflict name installed_version version, st.fs))
    ∧ (∀ (w : World) (fuel : Nat) (fs0 : LocalFS) (roots : List RPath)
        (e : RekyError) (fs2 : LocalFS),
        fetch_dependencies_entry w fuel fs0 roots = .fail e fs2 →
        fs2.cacheFile = fs0.cacheFile) := by
  refine ⟨?_, ?_, ?_⟩
  · intro st name version h
    simp [resolve_entry, ReckyCache.has_package, h]
  · intro st name version installed_version h hne
    simp [resolve_entry, ReckyCache.has_package, h, hne]
  · intro w fuel fs0 roots e fs2 h
    simp only [fetch_dependencies_entry] at h
    split at h
    · rename_i e1 fs1 hc
      injection h with h1 h2
      unfold fetch_cache at hc
      split at hc
      · injection hc with h3
        cases h3
        rw [← h2]
      · exact Except.noConfusion hc
    · rename_i cache0 cache_paths hc
      split at h
      · exact RunOut.noConfusion h
      · exact fetch_dependencies_fail_cacheFile w fuel _ e fs2 h

/-- Witness for C1 at concrete inputs: with `X ↦ 1.0` cached, redeclaring
`X==1.0` is a no-op and `X==2.0` is the conflict error; the two-root
conflict run leaves the (absent) cache file exactly as it was. -/
theorem c1_witness :
    resolve_entry rst_conflict "X" "1.0" = .ok rst_conflict
    ∧ resolve_entry rst_conflict "X" "2.0"
        = .error (.conflict "X" "1.0" "2.0", rst_conflict.fs)
    ∧ fs_conflict.cacheFile = fs_conflict.cacheFile :=
  ⟨c1_conflict_detection_and_abort.1 rst_conflict "X" "1.0" (by decide),
   c1_conflict_detection_and_abort.2.1 rst_conflict "X" "2.0" "1.0" (by decide) (by decide),
   c1_conflict_detection_and_abort.2.2 ⟨[], []⟩ 3 fs_conflict
     [RPath.proj "r1", RPath.proj "r2"] (.conflict "X" "1.0" "2.0") fs_conflict rfl⟩

/-- C9: `install` fails with a not-found error naming the package when its
descriptor is absent from the index, fails with a not-found error naming
both the requested version and the package when that version is absent
from the descriptor's `versions`, and both failures abort the whole
resolution run (shown on concrete runs whose root declares `B==1.0`). -/
theorem c9_install_not_found_errors :
    (∀ (w : World) (fs : LocalFS) (name version : String),
        lookupA w.index name = none →
        install w fs name version = .error (.pkg_not_found name, fs))
    ∧ (∀ (w : World) (fs : LocalFS) (name version : String) (pd : Pkg),
        lookupA w.index name = some pd → version ∉ pd.versions →
        install w fs name version = .error (.version_not_found version name, fs))
    ∧ (fetch_dependencies_entry ⟨[], []⟩ 3 fs_pkgB [RPath.proj "main"]).errOf
        = some (.pkg_not_found "B")
    ∧ (fetch_dependencies_entry ⟨[("B", ⟨["2.0"], "u"⟩)], []⟩ 3 fs_pkgB
        [RPath.proj "main"]).errOf = some (.version_not_found "1.0" "B") := by
  refine ⟨?_, ?_, rfl, rfl⟩
  · intro w fs name version h
    simp [install, get_package_data, h]
  · intro w fs name version pd h hmem
    have hfind : pd.versions.find? (fun v => v == version) = none := by
      rw [List.find?_eq_none]
      intro x hx
      simp only [beq_iff_eq]
      intro he
      exact hmem (he ▸ hx)
    simp [install, get_package_data, h, hfind]

/-- Witness for C9's hypothesis-bearing clauses at a concrete index. -/
theorem c9_witness :
    install ⟨[], []⟩ fs_pkgB "B" "1.0" = .error (.pkg_not_found "B", fs_pkgB)
    ∧ install ⟨[("B", ⟨["2.0"], "u"⟩)], []⟩ fs_pkgB "B" "1.0"
        = .error (.version_not_found "1.0" "B", fs_pkgB) :=
  ⟨c9_install_not_found_errors.1 ⟨[], []⟩ fs_pkgB "B" "1.0" (by decide),
   c9_install_not_found_errors.2.1 ⟨[("B", ⟨["2.0"], "u"⟩)], []⟩ fs_pkgB "B" "1.0"
     ⟨["2.0"], "u"⟩ (by decide) (by decide)⟩

/-- C8 fails on the code: in the run `main → A → B` (with `A`'s install
directory entering the worklist in pass 1 and `A` installed at the end of
pass 1), `A`'s declaration file is parsed in pass 2 AND in pass 3 — twice,
not exactly once. -/
theorem c8_installed_reparse_counterexample :
    (fetch_dependencies_entry world_chain 4 fs_chain [RPath.proj "main"]).isOk = true
    ∧ ((fetch_dependencies_entry world_chain 4 fs_chain
          [RPath.proj "main"]).parsesOf.filter
        (fun ev => decide (ev.2 = RPath.dep (get_dep_folder "A")))).length = 2 := by
  exact ⟨rfl, rfl⟩

/-- C8 amended: within one run the root's declaration file is re-parsed on
every pass, and the declaration file of an already-installed package is
parsed once in EVERY pass whose worklist contains its install directory
(parses in the pass where it was discovered find no file yet) — each pass
parses its worklist snapshot exactly, in order; the chain run's full parse
trail makes this concrete. -/
theorem c8_parse_schedule_amended :
    (∀ (ps : List RPath) (st st1 : RState),
        process_paths ps st = .ok st1 →
        st1.parses = st.parses ++ ps.map (fun p => (st.passes, p)))
    ∧ (fetch_dependencies_entry world_chain 4 fs_chain [RPath.proj "main"]).parsesOf
        = [(1, RPath.proj "main"),
           (2, RPath.proj "main"), (2, RPath.dep (get_dep_folder "A")),
           (3, RPath.proj "main"), (3, RPath.dep (get_dep_folder "A")),
           (3, RPath.dep (get_dep_folder "B"))] := by
  constructor
  · intro ps st st1 h
    exact ((process_paths_frame ps st).1 st1 h).2.2
  · rfl

/-- Witness for C8's universally quantified clause: the first pass of the
chain run parses exactly its one-element worklist snapshot. -/
theorem c8_witness :
    rst_conflict.parses
      = rst_conflict.parses ++ ([] : List RPath).map (fun p => (rst_conflict.passes, p)) :=
  c8_parse_schedule_amended.1 [] rst_conflict rst_conflict rfl

def world_single : World :=
  { index := [("A", ⟨["1.0"], "uA"⟩)], remotes := [("uA", "1.0", [])] }

/-- A fresh workspace whose root `main` declares exactly one package. -/
def fs_single : LocalFS :=
  { projFiles := [("main", ["A==1.0"])], depFiles := [], installed := [],
    sidecars := [], cacheFile := none, clones := [] }

/-- C2's pass bound fails on the code: one distinct package (`N = 1`), no
conflicts, yet one pass is not enough — the run converges only on the
second pass (the pass that re-parses everything and registers nothing
new). -/
theorem c2_pass_bound_counterexample :
    (fetch_dependencies_entry world_single 1 fs_single [RPath.proj "main"]).isOut = true
    ∧ (fetch_dependencies_entry world_single 2 fs_single [RPath.proj "main"]).isOk = true
    ∧ (fetch_dependencies_entry world_single 2 fs_single [RPath.proj "main"]).passesOf = 2 := by
  exact ⟨rfl, rfl, rfl⟩

/-- A key is absent from the lookup exactly when it is no key of the list. -/
theorem lookupA_eq_none {α : Type} (l : List (String × α)) (k : String) :
    lookupA l k = none ↔ k ∉ l.map Prod.fst := by
  induction l with
  | nil => simp [lookupA]
  | cons kv t ih =>
      obtain ⟨k1, v1⟩ := kv
      by_cases hk : k1 = k
      · subst hk
        simp [lookupA]
      · simp [lookupA, hk, ih, Ne.symm hk]

/-- A successful lookup exhibits a member of the list. -/
theorem lookupA_mem {α : Type} (l : List (String × α)) (k : String) (v : α)
    (h : lookupA l k = some v) : (k, v) ∈ l := by
  induction l with
  | nil => exact Option.noConfusion h
  | cons kv t ih =>
      obtain ⟨k1, v1⟩ := kv
      by_cases hk : k1 = k
      · subst hk
        simp [lookupA] at h
        simp [h]
      · simp [lookupA, hk] at h
        exact List.mem_cons_of_mem _ (ih h)

/-- Writing an absent key appends the entry. -/
theorem upsert_absent {α : Type} (l : List (String × α)) (k : String) (v : α)
    (h : lookupA l k = none) : upsert l k v = l ++ [(k, v)] := by
  induction l with
  | nil => rfl
  | cons kv t ih =>
      obtain ⟨k1, v1⟩ := kv
      by_cases hk : k1 = k
      · subst hk
        simp [lookupA] at h
      · simp [lookupA, hk] at h
        simp [upsert, hk, ih h]

/-- The keys after a write: the new key appended when it was absent,
unchanged when it was present. -/
theorem upsert_map_fst {α : Type} (l : List (String × α)) (k : String) (v : α) :
    (lookupA l k = none ∧ (upsert l k v).map Prod.fst = l.map Prod.fst ++ [k])
    ∨ ((lookupA l k).isSome = true ∧ (upsert l k v).map Prod.fst = l.map Prod.fst) := by
  induction l with
  | nil => exact Or.inl ⟨rfl, rfl⟩
  | cons kv t ih =>
      obtain ⟨k1, v1⟩ := kv
      by_cases hk : k1 = k
      · subst hk
        exact Or.inr ⟨by simp [lookupA], by simp [upsert]⟩
      · rcases ih with ⟨h1, h2⟩ | ⟨h1, h2⟩
        · exact Or.inl ⟨by simp [lookupA, hk, h1], by simp [upsert, hk, h2]⟩
        · exact Or.inr ⟨by simp [lookupA, hk, h1], by simp [upsert, hk, h2]⟩

/-- A write never disturbs nodup-ness of the keys. -/
theorem upsert_nodup_keys {α : Type} (l : List (String × α)) (k : String) (v : α)
    (h : (l.map Prod.fst).Nodup) : ((upsert l k v).map Prod.fst).Nodup := by
  rcases upsert_map_fst l k v with ⟨h1, h2⟩ | ⟨h1, h2⟩
  · rw [h2]
    have hk := (lookupA_eq_none l k).1 h1
    simp [List.nodup_append, h, hk]
  · rw [h2]
    exact h

/-- Membership after a write comes from the old list or is the new entry. -/
theorem mem_upsert {α : Type} (l : List (String × α)) (k : String) (v : α)
    (q : String × α) (h : q ∈ upsert l k v) : q ∈ l ∨ q = (k, v) := by
  induction l with
  | nil =>
      simp [upsert] at h
      exact Or.inr h
  | cons kv t ih =>
      obtain ⟨k1, v1⟩ := kv
      by_cases hk : k1 = k
      · subst hk
        simp [upsert] at h
        rcases h with h | h
        · exact Or.inr (by simp [h])
        · exact Or.inl (List.mem_cons_of_mem _ h)
      · simp [upsert, hk] at h
        rcases h with h | h
        · exact Or.inl (by simp [h])
        · rcases ih h with h1 | h1
          · exact Or.inl (List.mem_cons_of_mem _ h1)
          · exact Or.inr h1

/-- A successful remote lookup exhibits a member of the remotes list. -/
theorem lookupRemote_mem (rs : List (String × String × List String))
    (u b : String) (ls : List String) (h : lookupRemote rs u b = some ls) :
    (u, b, ls) ∈ rs := by
  induction rs with
  | nil => exact Option.noConfusion h
  | cons r t ih =>
      obtain ⟨u1, b1, ls1⟩ := r
      by_cases hu : u1 = u
      · subst hu
        by_cases hb : b1 = b
        · subst hb
          simp [lookupRemote] at h
          simp [h]
        · simp [lookupRemote, hb] at h
          exact List.mem_cons_of_mem _ (ih h)
      · simp [lookupRemote, hu] at h
        exact List.mem_cons_of_mem _ (ih h)

/-- The hash-derived install directory separates distinct package names. -/
theorem get_dep_folder_inj (a b : String) (h : get_dep_folder a = get_dep_folder b) :
    a = b := by
  cases a
  cases b
  simp only [get_dep_folder] at h
  injection h with h1
  injection h1 with h2 h3
  exact congrArg String.mk h3

/-- The names a declaration file contributes to the resolver. -/
def configNames (ls : List String) : List String :=
  (parse_config_lines ls).config.map Prod.fst

/-- Every name a file declares belongs to `S`. -/
def LinesBounded (S : Finset String) (ls : List String) : Prop :=
  ∀ n ∈ configNames ls, n ∈ S

/-- Every remote clone's declaration file only declares names in `S`. -/
def WorldBounded (S : Finset String) (w : World) : Prop :=
  ∀ r ∈ w.remotes, LinesBounded S r.2.2

/-- Every declaration file on disk only declares names in `S`. -/
def FSBounded (S : Finset String) (fs : LocalFS) : Prop :=
  (∀ q ∈ fs.projFiles, LinesBounded S q.2) ∧ (∀ q ∈ fs.depFiles, LinesBounded S q.2)

/-- A successful `parse_config` returns exactly the loop's mapping. -/
theorem parse_config_run_ok (ls : List String) (cfg : List (String × String))
    (h : parse_config_run ls = .ok cfg) : cfg = (parse_config_lines ls).config := by
  simp only [parse_config_run] at h
  split at h
  · injection h with h1
    exact h1.symm
  · exact Except.noConfusion h

/-- On a bounded filesystem every successfully parsed worklist path only
declares names in `S`. -/
theorem parse_config_at_bounded (S : Finset String) (fs : LocalFS) (p : RPath)
    (cfg : List (String × String)) (hb : FSBounded S fs)
    (h : parse_config_at fs p = .ok cfg) :
    ∀ n ∈ cfg.map Prod.fst, n ∈ S := by
  simp only [parse_config_at] at h
  split at h
  · injection h with h1
    subst h1
    intro n hn
    simp at hn
  · rename_i ls hls
    have hcfg := parse_config_run_ok ls cfg h
    subst hcfg
    intro n hn
    cases p with
    | proj pn =>
        exact hb.1 (pn, ls) (lookupA_mem _ _ _ hls) n hn
    | dep f =>
        exact hb.2 (f, ls) (lookupA_mem _ _ _ hls) n hn

/-- A successfully resolved pair either found its name cached with the same
version (pure no-op) or registered a fresh name at the end of the cache,
marking it dirty. -/
theorem resolve_entry_cases (st : RState) (n v : String) (st1 : RState)
    (h : resolve_entry st n v = .ok st1) :
    (lookupA st.cache.cache n = some v ∧ st1 = st)
    ∨ (lookupA st.cache.cache n = none
        ∧ st1.cache.cache = st.cache.cache ++ [(n, v)]
        ∧ st1.cache.has_changed = true
        ∧ st1.fs = st.fs ∧ st1.passes = st.passes ∧ st1.parses = st.parses
        ∧ st1.graph = st.graph) := by
  simp only [resolve_entry] at h
  split at h
  · rename_i hhas
    split at h
    · exact Except.noConfusion h
    · rename_i hne
      cases h
      left
      refine ⟨?_, rfl⟩
      simp only [ReckyCache.has_package] at hhas
      obtain ⟨x, hx⟩ := Option.isSome_iff_exists.1 hhas
      rw [hx]
      simp only [ne_eq, Decidable.not_not] at hne
      rw [hx] at hne
      simp at hne
      rw [hne]
  · rename_i hhas
    cases h
    right
    simp only [ReckyCache.has_package] at hhas
    have hnone : lookupA st.cache.cache n = none := by
      cases hl : lookupA st.cache.cache n
      · rfl
      · rw [hl] at hhas
        simp at hhas
    refine ⟨hnone, ?_, rfl, rfl, rfl, rfl, rfl⟩
    simp only [ReckyCache.add_package]
    exact upsert_absent _ _ _ hnone

/-- The loop over one file's pairs extends the cache by a block of fresh
entries drawn from the file's names; keys stay nodup, and the dirty flag
records exactly whether the block is non-empty. -/
theorem process_entries_cache (node : String) :
    ∀ (l : List (String × String)) (st st1 : RState),
      process_entries node l st = .ok st1 →
      ∃ added : List (String × String),
        st1.cache.cache = st.cache.cache ++ added
        ∧ (∀ nv ∈ added, nv.1 ∈ l.map Prod.fst ∧ lookupA st.cache.cache nv.1 = none)
        ∧ ((st.cache.cache.map Prod.fst).Nodup → (st1.cache.cache.map Prod.fst).Nodup)
        ∧ st1.cache.has_changed = (st.cache.has_changed || !added.isEmpty) := by
  intro l
  induction l with
  | nil =>
      intro st st1 h
      cases h
      exact ⟨[], by simp, by simp, fun hn => hn, by simp⟩
  | cons nv rest ih =>
      intro st st1 h
      unfold process_entries at h
      split at h
      · exact Except.noConfusion h
      · rename_i stm hm
        simp only [process_entry] at hm
        rcases resolve_entry_cases _ nv.1 nv.2 stm hm with ⟨hs, hst⟩ | hadd
        · subst hst
          obtain ⟨added, h1, h2, h3, h4⟩ := ih _ st1 h
          exact ⟨added, h1, fun q hq =>
            ⟨List.mem_cons_of_mem _ (h2 q hq).1, (h2 q hq).2⟩, h3, h4⟩
        · obtain ⟨hnone, hcc, hhc, hfs, hpa, hpr, hg⟩ := hadd
          obtain ⟨added, h1, h2, h3, h4⟩ := ih _ st1 h
          refine ⟨nv :: added, ?_, ?_, ?_, ?_⟩
          · rw [h1, hcc, List.append_assoc]
            rfl
          · intro q hq
            rcases List.mem_cons.1 hq with hq1 | hq1
            · subst hq1
              exact ⟨by simp, hnone⟩
            · have h5 := h2 q hq1
              refine ⟨List.mem_cons_of_mem _ h5.1, ?_⟩
              have h6 := (lookupA_eq_none _ _).1 h5.2
              rw [hcc] at h6
              rw [lookupA_eq_none]
              intro hmem
              exact h6 (by simp [hmem])
          · intro hnd
            apply h3
            rw [hcc]
            have hk := (lookupA_eq_none _ _).1 hnone
            simp [List.map_append, List.nodup_append, hnd, hk]
          · rw [h4, hhc]
            simp

/-- One worklist path extends the cache by fresh names of its (bounded)
declaration file. -/
theorem process_path_cache (S : Finset String) (p : RPath) (st st1 : RState)
    (hb : FSBounded S st.fs) (h : process_path p st = .ok st1) :
    ∃ added : List (String × String),
      st1.cache.cache = st.cache.cache ++ added
      ∧ (∀ nv ∈ added, nv.1 ∈ S ∧ lookupA st.cache.cache nv.1 = none)
      ∧ ((st.cache.cache.map Prod.fst).Nodup → (st1.cache.cache.map Prod.fst).Nodup)
      ∧ st1.cache.has_changed = (st.cache.has_changed || !added.isEmpty) := by
  simp only [process_path] at h
  split at h
  · exact Except.noConfusion h
  · rename_i config hcfg
    obtain ⟨added, h1, h2, h3, h4⟩ := process_entries_cache _ config _ st1 h
    have hnames := parse_config_at_bounded S st.fs p config hb hcfg
    exact ⟨added, h1, fun q hq => ⟨hnames q.1 (h2 q hq).1,
      (h2 q hq).2⟩, h3, h4⟩

/-- A whole pass extends the cache by a block of fresh names from `S`;
keys stay nodup and the dirty flag records whether anything was added. -/
theorem process_paths_cache (S : Finset String) :
    ∀ (ps : List RPath) (st st1 : RState),
      FSBounded S st.fs →
      process_paths ps st = .ok st1 →
      ∃ added : List (String × String),
        st1.cache.cache = st.cache.cache ++ added
        ∧ (∀ nv ∈ added, nv.1 ∈ S ∧ lookupA st.cache.cache nv.1 = none)
        ∧ ((st.cache.cache.map Prod.fst).Nodup → (st1.cache.cache.map Prod.fst).Nodup)
        ∧ st1.cache.has_changed = (st.cache.has_changed || !added.isEmpty) := by
  intro ps
  induction ps with
  | nil =>
      intro st st1 hb h
      cases h
      exact ⟨[], by simp, by simp, fun hn => hn, by simp⟩
  | cons p rest ih =>
      intro st st1 hb h
      unfold process_paths at h
      split at h
      · exact Except.noConfusion h
      · rename_i stm hm
        have hfs : stm.fs = st.fs := ((process_path_frame p st).1 stm hm).1
        obtain ⟨a1, h1, h2, h3, h4⟩ := process_path_cache S p st stm hb hm
        obtain ⟨a2, g1, g2, g3, g4⟩ := ih stm st1 (by rw [hfs]; exact hb) h
        refine ⟨a1 ++ a2, ?_, ?_, ?_, ?_⟩
        · rw [g1, h1, List.append_assoc]
        · intro q hq
          rcases List.mem_append.1 hq with hq1 | hq1
          · exact h2 q hq1
          · have h5 := g2 q hq1
            refine ⟨h5.1, ?_⟩
            have h6 := (lookupA_eq_none _ _).1 h5.2
            rw [h1] at h6
            rw [lookupA_eq_none]
            intro hmem
            exact h6 (by simp [hmem])
        · intro hnd
          exact g3 (h3 hnd)
        · rw [g4, h4]
          cases a1 <;> cases a2 <;> simp

/-- An empty declaration file declares nothing. -/
theorem linesBounded_nil (S : Finset String) : LinesBounded S [] := by
  intro n hn
  simp [configNames, parse_config_lines] at hn

/-- The exact effect of a successful `install`: sidecar written, one new
install directory, the clone's declaration file recorded, one clone event
appended — with the clone's file bounded on a bounded world. -/
theorem install_ok_spec (w : World) (fs : LocalFS) (n v : String) (fs1 : LocalFS)
    (h : install w fs n v = .ok fs1) :
    ∃ (iv : String) (cl : List String),
      fs1 = { fs with sidecars := upsert fs.sidecars (get_dep_folder n) n,
                      installed := fs.installed ++ [get_dep_folder n],
                      depFiles := upsert fs.depFiles (get_dep_folder n) cl,
                      clones := fs.clones ++ [(n, iv)] }
      ∧ ∀ S : Finset String, WorldBounded S w → LinesBounded S cl := by
  simp only [install] at h
  repeat' split at h
  all_goals try exact Except.noConfusion h
  rename_i pd hpd x2 iv hiv hne
  cases h
  refine ⟨iv, (lookupRemote w.remotes pd.download_url iv).getD [], rfl, ?_⟩
  intro S hw
  cases hr : lookupRemote w.remotes pd.download_url iv with
  | none => exact linesBounded_nil S
  | some ls => exact hw (pd.download_url, iv, ls) (lookupRemote_mem _ _ _ _ hr)

/-- Clone bookkeeping invariants of the workspace: clone events have
pairwise distinct package names, every cloned package's directory exists,
and (starting from a fresh workspace) every existing directory came from a
clone event. -/
def CloneInv (fs : LocalFS) : Prop :=
  (fs.clones.map Prod.fst).Nodup
  ∧ (∀ nv ∈ fs.clones, get_dep_folder nv.1 ∈ fs.installed)
  ∧ (∀ f ∈ fs.installed, ∃ nv ∈ fs.clones, get_dep_folder nv.1 = f)

/-- The install loop: keeps the filesystem bounded, only appends install
directories, preserves the clone invariants, and afterwards every listed
package's directory exists. -/
theorem install_missing_spec (w : World) (S : Finset String) (hw : WorldBounded S w) :
    ∀ (l : List (String × String)) (fs fs1 : LocalFS),
      install_missing w l fs = .ok fs1 →
      (FSBounded S fs → FSBounded S fs1)
      ∧ (∃ suf, fs1.installed = fs.installed ++ suf)
      ∧ (CloneInv fs → CloneInv fs1)
      ∧ (∀ nv ∈ l, get_dep_folder nv.1 ∈ fs1.installed)
      ∧ fs1.cacheFile = fs.cacheFile
      ∧ fs1.projFiles = fs.projFiles := by
  intro l
  induction l with
  | nil =>
      intro fs fs1 h
      cases h
      exact ⟨fun hb => hb, ⟨[], by simp⟩, fun hc => hc, by simp, rfl, rfl⟩
  | cons nv rest ih =>
      intro fs fs1 h
      unfold install_missing at h
      split at h
      · rename_i hinst
        obtain ⟨hb, ⟨suf, hsuf⟩, hc, hpost, hcf, hpf⟩ := ih fs fs1 h
        refine ⟨hb, ⟨suf, hsuf⟩, hc, ?_, hcf, hpf⟩
        intro q hq
        rcases List.mem_cons.1 hq with hq1 | hq1
        · subst hq1
          rw [hsuf]
          exact List.mem_append_left _ (by simpa [is_installed] using hinst)
        · exact hpost q hq1
      · rename_i hinst
        split at h
        · exact Except.noConfusion h
        · rename_i fsm hm
          obtain ⟨iv, cl, hshape, hcl⟩ := install_ok_spec w fs nv.1 nv.2 fsm hm
          obtain ⟨hb, ⟨suf, hsuf⟩, hc, hpost, hcf, hpf⟩ := ih fsm fs1 h
          have hninst : get_dep_folder nv.1 ∉ fs.installed := by
            simpa [is_installed] using hinst
          subst hshape
          refine ⟨?_, ?_, ?_, ?_, hcf, hpf⟩
          · intro hfb
            apply hb
            constructor
            · exact hfb.1
            · intro q hq
              rcases mem_upsert _ _ _ q hq with hq1 | hq1
              · exact hfb.2 q hq1
              · subst hq1
                exact hcl S hw
          · refine ⟨[get_dep_folder nv.1] ++ suf, ?_⟩
            rw [hsuf]
            simp
          · intro hci
            apply hc
            obtain ⟨hnd, hin, hcov⟩ := hci
            refine ⟨?_, ?_, ?_⟩
            · simp only [List.map_append]
              rw [List.nodup_append]
              refine ⟨hnd, by simp, ?_⟩
              intro a ha hb1
              simp at hb1
              subst hb1
              obtain ⟨q, hq, hq2⟩ := List.mem_map.1 ha
              apply hninst
              rw [← hq2]
              exact hin q hq
            · intro q hq
              rcases List.mem_append.1 hq with hq1 | hq1
              · exact List.mem_append_left _ (hin q hq1)
              · simp at hq1
                subst hq1
                simp
            · intro f hf
              rcases List.mem_append.1 hf with hf1 | hf1
              · obtain ⟨q, hq, hqf⟩ := hcov f hf1
                exact ⟨q, List.mem_append_left _ hq, hqf⟩
              · simp at hf1
                subst hf1
                exact ⟨(nv.1, iv), by simp, rfl⟩
          · intro q hq
            rcases List.mem_cons.1 hq with hq1 | hq1
            · subst hq1
              rw [hsuf]
              exact List.mem_append_left _ (by simp)
            · exact hpost q hq1

/-- The set of package names currently cached. -/
def keysF (st : RState) : Finset String :=
  (st.cache.cache.map Prod.fst).toFinset

/-- On a bounded world and filesystem the fixpoint recursion cannot run
out of fuel once the fuel exceeds the number of names of `S` still
missing from the cache: every extra pass caches at least one missing
name. -/
theorem fetch_dependencies_no_out (w : World) (S : Finset String)
    (hw : WorldBounded S w) :
    ∀ (fuel : Nat) (st st2 : RState),
      FSBounded S st.fs →
      st.cache.has_changed = false →
      (st.cache.cache.map Prod.fst).Nodup →
      (S \ keysF st).card + 1 ≤ fuel →
      fetch_dependencies w fuel st = .out st2 → False := by
  intro fuel
  induction fuel with
  | zero =>
      intro st st2 _ _ _ hcard _
      omega
  | succ f ih =>
      intro st st2 hb hch hnd hcard h
      simp only [fetch_dependencies] at h
      split at h
      · exact RunOut.noConfusion h
      · rename_i st1 hm
        have hfs1 := ((process_paths_frame _ _).1 st1 hm).1
        obtain ⟨added, h1, h2, h3, h4⟩ :=
          process_paths_cache S st.worklist { st with passes := st.passes + 1 } st1 hb hm
        have h1' : st1.cache.cache = st.cache.cache ++ added := h1
        have h4' : st1.cache.has_changed = (st.cache.has_changed || !added.isEmpty) := h4
        rw [hch, Bool.false_or] at h4'
        split at h
        · rename_i hcond
          split at h
          · exact RunOut.noConfusion h
          · rename_i st2' hi
            simp only [installed_if_needed] at hi
            split at hi
            · exact Except.noConfusion hi
            · rename_i fsm hmiss
              injection hi with h5
              cases h5
              obtain ⟨hbmono, _, _, _, _, _⟩ :=
                install_missing_spec w S hw st1.cache.cache st1.fs fsm hmiss
              have hb1 : FSBounded S st1.fs := by
                rw [hfs1]
                exact hb
              cases added with
              | nil =>
                  rw [hcond] at h4'
                  simp at h4'
              | cons a tl =>
                  have hmemS : a.1 ∈ S := (h2 a (List.mem_cons_self a tl)).1
                  have hnone : lookupA st.cache.cache a.1 = none :=
                    (h2 a (List.mem_cons_self a tl)).2
                  have hanotin : a.1 ∉ st.cache.cache.map Prod.fst :=
                    (lookupA_eq_none _ _).1 hnone
                  have hamem : a.1 ∈ S \ keysF st := by
                    rw [Finset.mem_sdiff]
                    refine ⟨hmemS, ?_⟩
                    simp only [keysF, List.mem_toFinset]
                    exact hanotin
                  have hsub : S \ (st1.cache.cache.map Prod.fst).toFinset
                      ⊆ (S \ keysF st).erase a.1 := by
                    intro x hx
                    rw [Finset.mem_sdiff] at hx
                    obtain ⟨hxS, hxnot⟩ := hx
                    rw [h1'] at hxnot
                    simp only [List.map_append, List.mem_toFinset, List.mem_append,
                      not_or] at hxnot
                    rw [Finset.mem_erase, Finset.mem_sdiff]
                    refine ⟨?_, hxS, ?_⟩
                    · intro hxa
                      subst hxa
                      exact hxnot.2 (by simp)
                    · simp only [keysF, List.mem_toFinset]
                      exact hxnot.1
                  have hcard3 : (S \ (st1.cache.cache.map Prod.fst).toFinset).card
                      < (S \ keysF st).card := by
                    have hle := Finset.card_le_card hsub
                    rw [Finset.card_erase_of_mem hamem] at hle
                    have hpos : 0 < (S \ keysF st).card := Finset.card_pos.2 ⟨a.1, hamem⟩
                    omega
                  have hc3 : (S \ (st1.cache.cache.map Prod.fst).toFinset).card + 1 ≤ f := by
                    omega
                  exact ih
                    { st1 with
                        cache := st1.cache.reset_changed
                        fs := fsm
                        index_fetched := true }
                    st2 (hbmono hb1) rfl (h3 hnd) hc3 h
        · exact RunOut.noConfusion h

/-- Pass-count bound: a successful fixpoint uses at most one pass more
than the number of names of `S` missing from the cache at entry. -/
theorem fetch_dependencies_ok_passes (w : World) (S : Finset String)
    (hw : WorldBounded S w) :
    ∀ (fuel : Nat) (st st1 : RState),
      FSBounded S st.fs →
      st.cache.has_changed = false →
      (st.cache.cache.map Prod.fst).Nodup →
      fetch_dependencies w fuel st = .ok st1 →
      st1.passes ≤ st.passes + (S \ keysF st).card + 1 := by
  intro fuel
  induction fuel with
  | zero =>
      intro st st1 _ _ _ h
      exact RunOut.noConfusion h
  | succ f ih =>
      intro st st1 hb hch hnd h
      simp only [fetch_dependencies] at h
      split at h
      · exact RunOut.noConfusion h
      · rename_i st1' hm
        have hframe := (process_paths_frame _ _).1 st1' hm
        have hfs1 : st1'.fs = st.fs := hframe.1
        have hp1 : st1'.passes = st.passes + 1 := hframe.2.1
        obtain ⟨added, h1, h2, h3, h4⟩ :=
          process_paths_cache S st.worklist { st with passes := st.passes + 1 } st1' hb hm
        have h1' : st1'.cache.cache = st.cache.cache ++ added := h1
        have h4' : st1'.cache.has_changed = (st.cache.has_changed || !added.isEmpty) := h4
        rw [hch, Bool.false_or] at h4'
        split at h
        · rename_i hcond
          split at h
          · exact RunOut.noConfusion h
          · rename_i st2' hi
            simp only [installed_if_needed] at hi
            split at hi
            · exact Except.noConfusion hi
            · rename_i fsm hmiss
              injection hi with h5
              cases h5
              obtain ⟨hbmono, _, _, _, _, _⟩ :=
                install_missing_spec w S hw st1'.cache.cache st1'.fs fsm hmiss
              have hb1 : FSBounded S st1'.fs := by
                rw [hfs1]
                exact hb
              cases added with
              | nil =>
                  rw [hcond] at h4'
                  simp at h4'
              | cons a tl =>
                  have hmemS : a.1 ∈ S := (h2 a (List.mem_cons_self a tl)).1
                  have hnone : lookupA st.cache.cache a.1 = none :=
                    (h2 a (List.mem_cons_self a tl)).2
                  have hanotin : a.1 ∉ st.cache.cache.map Prod.fst :=
                    (lookupA_eq_none _ _).1 hnone
                  have hamem : a.1 ∈ S \ keysF st := by
                    rw [Finset.mem_sdiff]
                    refine ⟨hmemS, ?_⟩
                    simp only [keysF, List.mem_toFinset]
                    exact hanotin
                  have hsub : S \ (st1'.cache.cache.map Prod.fst).toFinset
                      ⊆ (S \ keysF st).erase a.1 := by
                    intro x hx
                    rw [Finset.mem_sdiff] at hx
                    obtain ⟨hxS, hxnot⟩ := hx
                    rw [h1'] at hxnot
                    simp only [List.map_append, List.mem_toFinset, List.mem_append,
                      not_or] at hxnot
                    rw [Finset.mem_erase, Finset.mem_sdiff]
                    refine ⟨?_, hxS, ?_⟩
                    · intro hxa
                      subst hxa
                      exact hxnot.2 (by simp)
                    · simp only [keysF, List.mem_toFinset]
                      exact hxnot.1
                  have hcard3 : (S \ (st1'.cache.cache.map Prod.fst).toFinset).card
                      < (S \ keysF st).card := by
                    have hle := Finset.card_le_card hsub
                    rw [Finset.card_erase_of_mem hamem] at hle
                    have hpos : 0 < (S \ keysF st).card := Finset.card_pos.2 ⟨a.1, hamem⟩
                    omega
                  have hrec := ih
                    { st1' with
                        cache := st1'.cache.reset_changed
                        fs := fsm
                        index_fetched := true }
                    st1 (hbmono hb1) rfl (h3 hnd) h
                  have hrec' : st1.passes ≤ st1'.passes
                      + (S \ (st1'.cache.cache.map Prod.fst).toFinset).card + 1 := hrec
                  rw [hp1] at hrec'
                  omega
        · rename_i hcond
          cases h
          rw [hp1]
          omega

/-- Through a successful fixpoint the clone bookkeeping invariants are
maintained and every cached package ends up with its directory on disk. -/
theorem fetch_dependencies_clones (w : World) (S : Finset String)
    (hw : WorldBounded S w) :
    ∀ (fuel : Nat) (st st1 : RState),
      FSBounded S st.fs →
      CloneInv st.fs →
      (∀ nv ∈ st.cache.cache, get_dep_folder nv.1 ∈ st.fs.installed) →
      st.cache.has_changed = false →
      fetch_dependencies w fuel st = .ok st1 →
      CloneInv st1.fs
      ∧ (∀ nv ∈ st1.cache.cache, get_dep_folder nv.1 ∈ st1.fs.installed) := by
  intro fuel
  induction fuel with
  | zero =>
      intro st st1 _ _ _ _ h
      exact RunOut.noConfusion h
  | succ f ih =>
      intro st st1 hb hci hall hch h
      simp only [fetch_dependencies] at h
      split at h
      · exact RunOut.noConfusion h
      · rename_i st1' hm
        have hfs1 : st1'.fs = st.fs := ((process_paths_frame _ _).1 st1' hm).1
        obtain ⟨added, h1, h2, h3, h4⟩ :=
          process_paths_cache S st.worklist { st with passes := st.passes + 1 } st1' hb hm
        have h1' : st1'.cache.cache = st.cache.cache ++ added := h1
        have h4' : st1'.cache.has_changed = (st.cache.has_changed || !added.isEmpty) := h4
        rw [hch, Bool.false_or] at h4'
        split at h
        · rename_i hcond
          split at h
          · exact RunOut.noConfusion h
          · rename_i st2' hi
            simp only [installed_if_needed] at hi
            split at hi
            · exact Except.noConfusion hi
            · rename_i fsm hmiss
              injection hi with h5
              cases h5
              obtain ⟨hbmono, hsuf, hcim, hpost, _, _⟩ :=
                install_missing_spec w S hw st1'.cache.cache st1'.fs fsm hmiss
              have hb1 : FSBounded S st1'.fs := by
                rw [hfs1]
                exact hb
              have hci1 : CloneInv st1'.fs := by
                rw [hfs1]
                exact hci
              exact ih
                { st1' with
                    cache := st1'.cache.reset_changed
                    fs := fsm
                    index_fetched := true }
                st1 (hbmono hb1) (hcim hci1) hpost rfl h
        · rename_i hcond
          cases h
          have hadded : added = [] := by
            cases added with
            | nil => rfl
            | cons a tl =>
                rw [h4'] at hcond
                simp at hcond
          subst hadded
          have hcc : st1.cache.cache = st.cache.cache := by
            rw [h1']
            simp
          rw [hfs1, hcc]
          exact ⟨hci, hall⟩

/-- Seeding the cache entry by entry keeps its keys nodup. -/
theorem foldl_add_package_nodup (config : List (String × String)) :
    ∀ (c : ReckyCache), (c.cache.map Prod.fst).Nodup →
      (((config.foldl (fun (c : ReckyCache) nv => c.add_package nv.1 nv.2) c)).cache.map
        Prod.fst).Nodup := by
  induction config with
  | nil =>
      intro c hc
      exact hc
  | cons nv rest ih =>
      intro c hc
      exact ih _ (upsert_nodup_keys _ _ _ hc)

/-- What `fetch_cache` guarantees about the cache it seeds: clean dirty
flag and nodup keys. -/
theorem fetch_cache_ok_spec (fs : LocalFS) (cache0 : ReckyCache) (paths0 : List RPath)
    (h : fetch_cache fs = .ok (cache0, paths0)) :
    cache0.has_changed = false ∧ (cache0.cache.map Prod.fst).Nodup := by
  simp only [fetch_cache] at h
  split at h
  · exact Except.noConfusion h
  · rename_i config hcfg
    cases h
    refine ⟨rfl, ?_⟩
    exact foldl_add_package_nodup config ⟨[], false⟩ (by simp)

/-- From the invariants: every cached package was cloned exactly once. -/
theorem clone_count (fs : LocalFS) (cl : List (String × String))
    (hinv : CloneInv fs) (hall : ∀ nv ∈ cl, get_dep_folder nv.1 ∈ fs.installed) :
    ∀ n ∈ cl.map Prod.fst, (fs.clones.map Prod.fst).count n = 1 := by
  intro n hn
  obtain ⟨q, hq, hqn⟩ := List.mem_map.1 hn
  have hinst := hall q hq
  obtain ⟨nd, hin, hcov⟩ := hinv
  obtain ⟨p, hp, hpf⟩ := hcov _ hinst
  have hpn : p.1 = q.1 := get_dep_folder_inj _ _ hpf
  have hmem : n ∈ fs.clones.map Prod.fst := by
    rw [← hqn, ← hpn]
    exact List.mem_map_of_mem Prod.fst hp
  exact List.count_eq_one_of_mem nd hmem

/-- C2 amended: when every declaration file the run can see (project
roots, installed directories, and all remote clones) only mentions the
`N = S.card` distinct package names of `S`, the resolution fixpoint
terminates — fuel for `N + 1` passes cannot run out — and a successful run
uses at most `N + 1` passes (at most `N` passes register a new package,
plus one final pass that registers nothing); starting from a fresh
workspace, the run's clone events carry pairwise distinct package names
and every package in the final cache is cloned exactly once, regardless of
how many nodes depend on it. -/
theorem c2_termination_amended (S : Finset String) (w : World) (fs0 : LocalFS)
    (roots : List RPath) (fuel : Nat)
    (hw : WorldBounded S w) (hfs : FSBounded S fs0) :
    (S.card + 1 ≤ fuel → (fetch_dependencies_entry w fuel fs0 roots).isOut = false)
    ∧ (∀ st1, fetch_dependencies_entry w fuel fs0 roots = RunOut.ok st1 →
        st1.passes ≤ S.card + 1
        ∧ (FreshFS fs0 →
            (st1.fs.clones.map Prod.fst).Nodup
            ∧ ∀ n ∈ st1.cache.cache.map Prod.fst,
                (st1.fs.clones.map Prod.fst).count n = 1)) := by
  cases hc : fetch_cache fs0 with
  | error efs =>
      obtain ⟨e0, f0⟩ := efs
      constructor
      · intro hfuel
        simp only [fetch_dependencies_entry, hc]
        rfl
      · intro st1 h1
        simp only [fetch_dependencies_entry, hc] at h1
        exact RunOut.noConfusion h1
  | ok cp =>
      obtain ⟨cache0, paths0⟩ := cp
      obtain ⟨hch0, hnd0⟩ := fetch_cache_ok_spec fs0 cache0 paths0 hc
      constructor
      · intro hfuel
        cases hr : fetch_dependencies w fuel
            { worklist := roots ++ paths0, cache := cache0, graph := [], fs := fs0,
              index_fetched := false, passes := 0, parses := [] } with
        | ok stx =>
            simp only [fetch_dependencies_entry, hc, hr]
            rfl
        | fail e f2 =>
            simp only [fetch_dependencies_entry, hc, hr]
            rfl
        | out stx =>
            exfalso
            refine fetch_dependencies_no_out w S hw fuel
              { worklist := roots ++ paths0, cache := cache0, graph := [], fs := fs0,
                index_fetched := false, passes := 0, parses := [] }
              stx hfs hch0 hnd0 ?_ hr
            have hle : (S \ keysF
                { worklist := roots ++ paths0, cache := cache0, graph := [], fs := fs0,
                  index_fetched := false, passes := 0, parses := [] }).card ≤ S.card :=
              Finset.card_le_card Finset.sdiff_subset
            omega
      · intro st1 h1
        simp only [fetch_dependencies_entry, hc] at h1
        split at h1
        · rename_i stx hr
          cases h1
          constructor
          · have hp := fetch_dependencies_ok_passes w S hw fuel
              { worklist := roots ++ paths0, cache := cache0, graph := [], fs := fs0,
                index_fetched := false, passes := 0, parses := [] }
              stx hfs hch0 hnd0 hr
            have hp2 : stx.passes ≤ 0 + (S \ keysF
                { worklist := roots ++ paths0, cache := cache0, graph := [], fs := fs0,
                  index_fetched := false, passes := 0, parses := [] }).card + 1 := hp
            have hle : (S \ keysF
                { worklist := roots ++ paths0, cache := cache0, graph := [], fs := fs0,
                  index_fetched := false, passes := 0, parses := [] }).card ≤ S.card :=
              Finset.card_le_card Finset.sdiff_subset
            show stx.passes ≤ S.card + 1
            omega
          · intro hfresh
            obtain ⟨hi0, hc0, hcf0, hd0, hs0⟩ := hfresh
            have hfc : fetch_cache fs0 = .ok (⟨[], false⟩, []) := by
              simp [fetch_cache, hcf0, ReckyCache.reset_changed]
            rw [hfc] at hc
            injection hc with hc1
            injection hc1 with hc2 hc3
            have hinv0 : CloneInv fs0 := by
              refine ⟨?_, ?_, ?_⟩
              · rw [hc0]
                simp
              · intro nv hnv
                rw [hc0] at hnv
                simp at hnv
              · intro f hf0
                rw [hi0] at hf0
                simp at hf0
            have hall0 : ∀ nv ∈ cache0.cache, get_dep_folder nv.1 ∈ fs0.installed := by
              intro nv hnv
              rw [← hc2] at hnv
              simp at hnv
            obtain ⟨hci, hall⟩ := fetch_dependencies_clones w S hw fuel
              { worklist := roots ++ paths0, cache := cache0, graph := [], fs := fs0,
                index_fetched := false, passes := 0, parses := [] }
              stx hfs hinv0 hall0 hch0 hr
            exact ⟨hci.1, clone_count stx.fs stx.cache.cache hci hall⟩
        · rename_i hne
          exact (hne st1 h1).elim

/-- Witness for C2 at the one-package world: fuel for `N + 1 = 2` passes
cannot run out. -/
theorem c2_witness :
    (fetch_dependencies_entry world_single 2 fs_single [RPath.proj "main"]).isOut = false :=
  (c2_termination_amended {"A"} world_single fs_single [RPath.proj "main"] 2
    (by unfold WorldBounded LinesBounded; decide)
    (by unfold FSBounded LinesBounded; decide)).1 (by decide)
